import Mathlib

/-!
# Verification of the toy-quant amplitude-vector simulation engine

Shallow embedding of the repository `aDotInTheVoid/toy-quant` (Rust).
`f32` arithmetic is embedded as exact rational arithmetic (`ℚ`); the
floating-point literals of the source (`FRAC_1_SQRT_2`, `0.99999994`,
`f32::EPSILON`) are embedded as the exact rational values of the `f32`
constants.  Fallible operations (Rust panics: `assert_relative_eq!`,
`try_into().unwrap()`, index/shift overflow) are embedded as `Option`,
with `none` standing for a panic.
-/

namespace ToyQuant

/-! ### Complex numbers (`src/complex.rs`)

The source type is a pair of `f32` (re, im); here a pair of `ℚ`. -/

/-- A complex number: pair (re, im).  Mirrors `struct Complex { re: f32, im: f32 }`. -/
@[ext]
structure Complex where
  re : ℚ
  im : ℚ

/-- Structural (derived `PartialEq`) equality is componentwise; decided
without `Eq.rec` so that concrete evaluation reduces. -/
instance : DecidableEq Complex := fun a b =>
  decidable_of_iff (a.re = b.re ∧ a.im = b.im)
    (by cases a; cases b; simp)

/-- Equality of optional values decided without `Eq.rec`, so that concrete
evaluation of panicking computations reduces. -/
instance instDecEqOptionNoRec {α : Type _} [DecidableEq α] : DecidableEq (Option α) :=
  fun a b =>
  match a, b with
  | none, none => isTrue rfl
  | some _, none => isFalse (fun hc => Option.noConfusion hc)
  | none, some _ => isFalse (fun hc => Option.noConfusion hc)
  | some x, some y => decidable_of_iff (x = y) (by simp)

namespace Complex

/-- `Complex::new` -/
def new (re im : ℚ) : Complex := ⟨re, im⟩

/-- `Complex::zero`: 0 + 0i -/
protected def zero : Complex := ⟨0, 0⟩

/-- `Complex::one`: 1 + 0i -/
protected def one : Complex := ⟨1, 0⟩

/-- `Complex::i`: √-1 -/
def i : Complex := ⟨0, 1⟩

/-- `Complex::from_re` -/
def from_re (re : ℚ) : Complex := ⟨re, 0⟩

/-- `mag_square`: |x|² = re² + im² (`self.re.powi(2) + self.im.powi(2)`). -/
def mag_square (z : Complex) : ℚ := z.re ^ 2 + z.im ^ 2

/-- `conj`: the complex conjugate a - bi. -/
def conj (z : Complex) : Complex := ⟨z.re, -z.im⟩

/-- `impl Add for Complex` -/
protected def add (a b : Complex) : Complex := ⟨a.re + b.re, a.im + b.im⟩

/-- `impl Sub for Complex` -/
protected def sub (a b : Complex) : Complex := ⟨a.re - b.re, a.im - b.im⟩

/-- `impl Mul for Complex` -/
protected def mul (a b : Complex) : Complex :=
  ⟨a.re * b.re - a.im * b.im, a.re * b.im + a.im * b.re⟩

/-- `impl Neg for Complex` -/
protected def neg (a : Complex) : Complex := ⟨-a.re, -a.im⟩

instance : Zero Complex := ⟨Complex.zero⟩
instance : One Complex := ⟨Complex.one⟩
instance : Add Complex := ⟨Complex.add⟩
instance : Sub Complex := ⟨Complex.sub⟩
instance : Mul Complex := ⟨Complex.mul⟩
instance : Neg Complex := ⟨Complex.neg⟩

@[simp] theorem zero_re : (0 : Complex).re = 0 := rfl
@[simp] theorem zero_im : (0 : Complex).im = 0 := rfl
@[simp] theorem one_re : (1 : Complex).re = 1 := rfl
@[simp] theorem one_im : (1 : Complex).im = 0 := rfl
@[simp] theorem add_re (a b : Complex) : (a + b).re = a.re + b.re := rfl
@[simp] theorem add_im (a b : Complex) : (a + b).im = a.im + b.im := rfl
@[simp] theorem sub_re (a b : Complex) : (a - b).re = a.re - b.re := rfl
@[simp] theorem sub_im (a b : Complex) : (a - b).im = a.im - b.im := rfl
@[simp] theorem mul_re (a b : Complex) : (a * b).re = a.re * b.re - a.im * b.im := rfl
@[simp] theorem mul_im (a b : Complex) : (a * b).im = a.re * b.im + a.im * b.re := rfl
@[simp] theorem neg_re (a : Complex) : (-a).re = -a.re := rfl
@[simp] theorem neg_im (a : Complex) : (-a).im = -a.im := rfl
@[simp] theorem conj_re (a : Complex) : (conj a).re = a.re := rfl
@[simp] theorem conj_im (a : Complex) : (conj a).im = -a.im := rfl

instance : CommRing Complex where
  add_assoc a b c := by ext <;> simp <;> ring
  zero_add a := by ext <;> simp
  add_zero a := by ext <;> simp
  add_comm a b := by ext <;> simp <;> ring
  mul_assoc a b c := by ext <;> simp <;> ring
  one_mul a := by ext <;> simp
  mul_one a := by ext <;> simp
  left_distrib a b c := by ext <;> simp <;> ring
  right_distrib a b c := by ext <;> simp <;> ring
  zero_mul a := by ext <;> simp
  mul_zero a := by ext <;> simp
  mul_comm a b := by ext <;> simp <;> ring
  neg_add_cancel a := by ext <;> simp
  sub_eq_add_neg a b := by ext <;> simp <;> ring
  nsmul := nsmulRec
  zsmul := zsmulRec

instance : StarRing Complex where
  star := conj
  star_involutive a := by ext <;> simp
  star_mul a b := by ext <;> simp <;> ring
  star_add a b := by ext <;> simp <;> ring

@[simp] theorem star_def (a : Complex) : star a = conj a := rfl

/-- Real part as an additive monoid homomorphism (for pushing `re` through sums). -/
def reHom : Complex →+ ℚ where
  toFun := Complex.re
  map_zero' := rfl
  map_add' _ _ := rfl

@[simp] theorem reHom_apply (a : Complex) : reHom a = a.re := rfl

/-- Imaginary part as an additive monoid homomorphism. -/
def imHom : Complex →+ ℚ where
  toFun := Complex.im
  map_zero' := rfl
  map_add' _ _ := rfl

@[simp] theorem imHom_apply (a : Complex) : imHom a = a.im := rfl

end Complex

/-! ### Approximate equality (the `approx` crate)

`assert_relative_eq!` on `f32` uses the crate defaults
`epsilon = f32::EPSILON` and `max_relative = f32::EPSILON`, and holds when
the operands are equal, or their absolute difference is at most `epsilon`,
or it is at most `max(|a|,|b|) * max_relative`. -/

/-- `f32::EPSILON` = 2⁻²³ exactly. -/
def eps32 : ℚ := 1 / 8388608

/-- The `approx` crate's `relative_eq` on `f32` with default epsilons. -/
def relativeEqQ (a b : ℚ) : Prop :=
  a = b ∨ |a - b| ≤ eps32 ∨ |a - b| ≤ max |a| |b| * eps32

instance (a b : ℚ) : Decidable (relativeEqQ a b) :=
  inferInstanceAs (Decidable (a = b ∨ |a - b| ≤ eps32 ∨ |a - b| ≤ max |a| |b| * eps32))

/-- Modelled from the spec: the repository's `approx` instance for its own
`Complex` type is not among the provided source files (only uses of
`assert_relative_eq!` on `Complex`-valued vectors and matrices are).
Following the spec's "approximate-equality comparison … an epsilon-based
comparison" and the crate's pattern for two-component types, it is modelled
as componentwise `f32` relative equality with the default epsilons. -/
def Complex.relativeEq (a b : Complex) : Prop :=
  relativeEqQ a.re b.re ∧ relativeEqQ a.im b.im

instance (a b : Complex) : Decidable (a.relativeEq b) :=
  inferInstanceAs (Decidable (relativeEqQ a.re b.re ∧ relativeEqQ a.im b.im))

/-- `assert_relative_eq!` on an `nalgebra` matrix: elementwise. -/
def matRelEq {m n : ℕ} (A B : Matrix (Fin m) (Fin n) Complex) : Prop :=
  ∀ i j, (A i j).relativeEq (B i j)

instance {m n : ℕ} (A B : Matrix (Fin m) (Fin n) Complex) :
    Decidable (matRelEq A B) :=
  inferInstanceAs (Decidable (∀ i j, (A i j).relativeEq (B i j)))

/-! ### Qubit (`src/qubit.rs`) -/

/-- A single qubit: amplitude pair.  Mirrors `Qubit { inner: Vector2<Complex> }`. -/
@[ext]
structure Qubit where
  p0 : Complex
  p1 : Complex
deriving DecidableEq

namespace Qubit

/-- The construction invariant checked by
`assert_relative_eq!(1.0, p_0.mag_square() + p_1.mag_square())`. -/
def valid (q : Qubit) : Prop :=
  relativeEqQ 1 (q.p0.mag_square + q.p1.mag_square)

instance (q : Qubit) : Decidable q.valid :=
  inferInstanceAs (Decidable (relativeEqQ 1 (q.p0.mag_square + q.p1.mag_square)))

/-- `Qubit::new`: asserts the normalization invariant (panic ↦ `none`). -/
def new (p_0 p_1 : Complex) : Option Qubit :=
  if relativeEqQ 1 (p_0.mag_square + p_1.mag_square) then some ⟨p_0, p_1⟩ else none

/-- The amplitude pair of `Qubit::zero()` (= `new(one, zero)`; the assert passes). -/
protected def zero : Qubit := ⟨Complex.one, Complex.zero⟩

/-- The amplitude pair of `Qubit::one()` (= `new(zero, one)`; the assert passes). -/
protected def one : Qubit := ⟨Complex.zero, Complex.one⟩

/-- `impl Neg for Qubit`: componentwise negation of the amplitude vector. -/
protected def neg (q : Qubit) : Qubit := ⟨-q.p0, -q.p1⟩

end Qubit

/-! ### Classical register (`src/registers/classical.rs`) -/

/-- `ClassicalRegister { bits: u8 }`; `bits` is embedded as `ℕ` (< 256 in
every reachable state). -/
structure ClassicalRegister where
  bits : ℕ
deriving DecidableEq

namespace ClassicalRegister

/-- The loop of `FromIterator<bool>::from_iter`:
`bits |= (bit as u8) << n_bits`.  A shift by 8 or more overflows `u8` and
panics in debug builds (↦ `none`). -/
def from_iterGo : List Bool → ℕ → ℕ → Option ℕ
  | [], _, bits => some bits
  | b :: rest, n_bits, bits =>
    if 8 ≤ n_bits then none
    else from_iterGo rest (n_bits + 1) (bits ||| (b.toNat <<< n_bits))

/-- `ClassicalRegister::from_iter`: packs booleans LSB-first. -/
def from_iter (l : List Bool) : Option ClassicalRegister :=
  (from_iterGo l 0 0).map ClassicalRegister.mk

/-- `index(i)`: reads bit `i` as `(bits >> index) & 1 == 1`; the shift
panics for `i ≥ 8` (`u8` shift overflow, ↦ `none`). -/
def index (r : ClassicalRegister) (i : ℕ) : Option Bool :=
  if 8 ≤ i then none else some (decide ((r.bits >>> i) &&& 1 = 1))

/-- The value packed by `from_iter` (LSB-first), as a plain number. -/
def ofBits : List Bool → ℕ
  | [] => 0
  | b :: rest => b.toNat + 2 * ofBits rest

end ClassicalRegister

/-! ### Quantum register and collapse (`src/registers/quantum.rs`)

The register's amplitude vector is embedded as a `List Complex` for the
scan-based collapse algorithm (`nalgebra`'s `.iter().enumerate()` yields the
amplitudes in index order) and as `Fin n → Complex` for matrix application. -/

/-- Rust's truncation toward zero, for `f32 % 1.0`. -/
def rustTrunc (q : ℚ) : ℤ := if 0 ≤ q then ⌊q⌋ else ⌈q⌉

/-- Rust's `%` on floats (fmod): `a - b * trunc(a / b)`.  It keeps the sign
of the dividend: `-0.5 % 1.0 = -0.5`. -/
def rustFmod (a b : ℚ) : ℚ := a - b * (rustTrunc (a / b) : ℚ)

/-- `is_valid`: the register normalization check,
`(acc - 1.0).abs() <= 1.0e-6` where `acc` sums `mag_square` over the
amplitudes.  (The `f32` literal `1.0e-6` rounds to ≈1e-6; the exact value
10⁻⁶ is used here — no claim depends on its last-ulp value.) -/
def is_valid (v : List Complex) : Prop :=
  |v.foldl (fun acc c => acc + c.mag_square) 0 - 1| ≤ 1 / 1000000

instance (v : List Complex) : Decidable (is_valid v) :=
  inferInstanceAs (Decidable (_ ≤ _))

/-- The loop of `collapse_with_target`: walks the amplitudes accumulating
`current += prob`; returns the first index with `current > target`
(its `try_into::<u8>()` panics above 255 ↦ `none`); otherwise tracks a
reserve index at every nonzero-probability element (same `u8` bound) and
falls back to `reserve.unwrap()` (panics when `none`) after the scan. -/
def collapseGo : List Complex → ℚ → ℕ → ℚ → Option ℕ → Option ℕ
  | [], _, _, _, reserve => reserve
  | c :: rest, target, idx, cur, reserve =>
    let prob := c.mag_square
    let current := cur + prob
    if target < current then
      if idx ≤ 255 then some idx else none
    else if prob ≠ 0 then
      if idx ≤ 255 then collapseGo rest target (idx + 1) current (some idx) else none
    else
      collapseGo rest target (idx + 1) current reserve

/-- `collapse_with_target`: reduces the target by `% 1.0`, then scans.
The returned basis index is the `bits` field of the produced
`ClassicalRegister`; `none` is a panic. -/
def collapse_with_target (v : List Complex) (target : ℚ) : Option ℕ :=
  collapseGo v (rustFmod target 1) 0 0 none

/-- `QuantumRegister::from_classical`: amplitude 1 at the classical bit
pattern, 0 elsewhere; indexing `qubits[cr.bits]` panics when the pattern
is outside the basis range (↦ `none`). -/
def from_classical (n : ℕ) (cr : ClassicalRegister) : Option (Fin n → Complex) :=
  if cr.bits < n then
    some (fun i => if i.val = cr.bits then Complex.one else Complex.zero)
  else none

/-- `QuantumRegister::from_2_qubits`: tensor product, in the source's
`Vector4::new(ket_00, ket_01, ket_10, ket_11)` order. -/
def from_2_qubits (qa qb : Qubit) : Fin 4 → Complex :=
  ![qa.p0 * qb.p0, qa.p0 * qb.p1, qa.p1 * qb.p0, qa.p1 * qb.p1]

/-- Sum of squared amplitude magnitudes of a register vector. -/
def sumSq {n : ℕ} (v : Fin n → Complex) : ℚ := ∑ i, (v i).mag_square

/-! ### Gates (`src/gates/unitary.rs`, `src/gates/binary.rs`) -/

/-- 2x2 complex matrix (`nalgebra::Matrix2<Complex>`). -/
abbrev Mat2 := Matrix (Fin 2) (Fin 2) Complex

/-- 4x4 complex matrix (`nalgebra::Matrix4<Complex>`). -/
abbrev Mat4 := Matrix (Fin 4) (Fin 4) Complex

/-- The unitarity product computed by both gate constructors:
`mat * mat.transpose().map(|x| x.conj())`. -/
def unitarityProduct {n : ℕ} (m : Matrix (Fin n) (Fin n) Complex) :
    Matrix (Fin n) (Fin n) Complex :=
  m * (m.transpose.map Complex.conj)

/-- `UnaryGate`: a validated 2x2 matrix. -/
structure UnaryGate where
  mat : Mat2

instance : DecidableEq UnaryGate := fun a b =>
  decidable_of_iff (a.mat = b.mat) (by cases a; cases b; simp)

/-- `UnaryGate::new`: asserts `U·U† ≈ I` (panic ↦ `none`). -/
def UnaryGate.new (mat : Mat2) : Option UnaryGate :=
  if matRelEq (unitarityProduct mat) 1 then some ⟨mat⟩ else none

/-- `BinaryGate`: a validated 4x4 matrix. -/
structure BinaryGate where
  mat : Mat4

instance : DecidableEq BinaryGate := fun a b =>
  decidable_of_iff (a.mat = b.mat) (by cases a; cases b; simp)

namespace BinaryGate

/-- `BinaryGate::new`: asserts `U·U† ≈ I` (panic ↦ `none`). -/
def new (mat : Mat4) : Option BinaryGate :=
  if matRelEq (unitarityProduct mat) 1 then some ⟨mat⟩ else none

/-- `BinaryGate::apply`: `self.mat * qubits.into_vector()`. -/
def apply (g : BinaryGate) (qubits : Fin 4 → Complex) : Fin 4 → Complex :=
  g.mat.mulVec qubits

/-- `BinaryGate::compose`: `Self::new(self.mat * other.mat)` — the product is
re-validated, so composition can panic (↦ `none`). -/
def compose (g other : BinaryGate) : Option BinaryGate :=
  new (g.mat * other.mat)

end BinaryGate

/-- The CNOT matrix of `gates::cnot()` (rows in source order). -/
def cnotMat : Mat4 :=
  !![1, 0, 0, 0;
     0, 1, 0, 0;
     0, 0, 0, 1;
     0, 0, 1, 0]

/-- The SWAP matrix of `gates::swap()`. -/
def swapMat : Mat4 :=
  !![1, 0, 0, 0;
     0, 0, 1, 0;
     0, 1, 0, 0;
     0, 0, 0, 1]

/-- `gates::cnot()` -/
def cnot : Option BinaryGate := BinaryGate.new cnotMat

/-- `gates::swap()` -/
def swapGate : Option BinaryGate := BinaryGate.new swapMat

/-- `BinaryGate::swap`: `gates::swap().compose(self).compose(&gates::swap())`. -/
def BinaryGate.swap (g : BinaryGate) : Option BinaryGate :=
  swapGate.bind fun sw => (sw.compose g).bind fun m => m.compose sw

/-! ### The collapse algorithm as the spec describes it (claim C1)

These two definitions follow the words of the specification, to be compared
with `collapse_with_target` as translated from the source. -/

/-- Spec side: the first index whose running probability mass exceeds the
target, scanning with accumulator `cur`. -/
def firstExceed : List ℚ → ℚ → ℚ → Option ℕ
  | [], _, _ => none
  | p :: rest, target, cur =>
    if target < cur + p then some 0
    else (firstExceed rest target (cur + p)).map (· + 1)

/-- Spec side: the last index with non-zero probability mass. -/
def lastNonzero : List ℚ → Option ℕ
  | [] => none
  | p :: rest =>
    match lastNonzero rest with
    | some j => some (j + 1)
    | none => if p ≠ 0 then some 0 else none

/-- Spec side (claim C1): reduce the target modulo 1.0, return the first
index whose running mass `current += |amplitude[i]|²` exceeds it, else the
last index with non-zero mass. -/
def collapseSpec (v : List Complex) (target : ℚ) : Option ℕ :=
  let t := rustFmod target 1
  match firstExceed (v.map Complex.mag_square) t 0 with
  | some i => some i
  | none => lastNonzero (v.map Complex.mag_square)

/-! ### Concrete inputs used by the claims -/

/-- The exact value of the `f32` constant `FRAC_1_SQRT_2` (≈ 1/√2). -/
def frac1sqrt2 : ℚ := 11863283 / 16777216

/-- The exact value of the `f32` literal `0.99999994` (= 1 - 2⁻²⁴, the
largest `f32` below 1). -/
def t99 : ℚ := 16777215 / 16777216

/-- The two-outcome equal-superposition (Bell-state) amplitude vector of the
source's tests: `FRAC_1_SQRT_2` at indices 0b00 and 0b11, zero elsewhere. -/
def bellList : List Complex :=
  [⟨frac1sqrt2, 0⟩, Complex.zero, Complex.zero, ⟨frac1sqrt2, 0⟩]

/-- A 257-amplitude basis register: all mass at index 256.  Constructible as
`QuantumRegister::<U257>::from_vector`; its basis index does not fit in the
`u8` of `ClassicalRegister`. -/
def bigList : List Complex :=
  List.replicate 256 Complex.zero ++ [Complex.one]

/-- 1 - 2⁻²⁴: scaling factor of a matrix that passes the approximate
unitarity validation without being unitary.  This is an exact `f32` value
(the spacing of `f32` in [1/2, 1) is 2⁻²⁴). -/
def cQ : ℚ := 16777215 / 16777216

/-- `cQ` times the identity: a non-unitary matrix accepted by
`BinaryGate::new` — its `U·U†` has diagonal entries `cQ²` with
`|1 - cQ²| = 2⁻²³ - 2⁻⁴⁸ ≤ f32::EPSILON`, inside the absolute-epsilon
clause of the check (in real `f32` the computed square rounds to exactly
`1 - 2⁻²³`, which also passes). -/
def gmat : Mat4 :=
  !![⟨cQ, 0⟩, 0, 0, 0;
     0, ⟨cQ, 0⟩, 0, 0;
     0, 0, ⟨cQ, 0⟩, 0;
     0, 0, 0, ⟨cQ, 0⟩]

/-- The basis register |00⟩ of dimension 4 (what `from_classical` builds
from the classical pattern 0). -/
def e0reg : Fin 4 → Complex :=
  fun i => if i.val = 0 then Complex.one else Complex.zero

/-- `SWAP · CNOT · SWAP` written out (CNOT with its two wires exchanged),
used as a stepping stone in the C7 composition chain. -/
def swapCnotSwapMat : Mat4 :=
  !![1, 0, 0, 0;
     0, 0, 0, 1;
     0, 0, 1, 0;
     0, 1, 0, 0]

/-- `SWAP · CNOT` written out. -/
def swapCnotMat : Mat4 :=
  !![1, 0, 0, 0;
     0, 0, 0, 1;
     0, 1, 0, 0;
     0, 0, 1, 0]

/-- `CNOT · (SWAP · CNOT · SWAP)` written out. -/
def cnotSwapCnotSwapMat : Mat4 :=
  !![1, 0, 0, 0;
     0, 0, 0, 1;
     0, 1, 0, 0;
     0, 0, 1, 0]

/-- `(SWAP · CNOT · SWAP) · CNOT` written out. -/
def swapCnotSwapCnotMat : Mat4 :=
  !![1, 0, 0, 0;
     0, 0, 1, 0;
     0, 0, 0, 1;
     0, 1, 0, 0]

/-! ## Theorems -/

attribute [local semireducible] Rat.add Rat.mul Rat.sub Rat.inv

set_option maxRecDepth 100000

/-! ### The collapse scan (claims C1, C2) -/

/-- The single workhorse lemma for the collapse scan: for basis indices that
fit in `u8`, the source loop computes exactly "first index whose running
mass exceeds the target, else last index with non-zero mass, else the
incoming reserve". -/
theorem collapseGo_eq_spec (l : List Complex) :
    ∀ (target : ℚ) (idx : ℕ) (cur : ℚ) (reserve : Option ℕ),
      idx + l.length ≤ 256 →
      collapseGo l target idx cur reserve =
        match firstExceed (l.map Complex.mag_square) target cur with
        | some j => some (idx + j)
        | none =>
          match lastNonzero (l.map Complex.mag_square) with
          | some j => some (idx + j)
          | none => reserve := by
  induction l with
  | nil => intro target idx cur reserve _; rfl
  | cons c rest ih =>
    intro target idx cur reserve h
    have hidx : idx ≤ 255 := by
      simp only [List.length_cons] at h; omega
    have hrest : (idx + 1) + rest.length ≤ 256 := by
      simp only [List.length_cons] at h; omega
    by_cases hlt : target < cur + c.mag_square
    · simp [collapseGo, firstExceed, hlt, hidx]
    · by_cases hz : c.mag_square = 0
      · have hlt' : ¬target < cur := by rwa [hz, add_zero] at hlt
        rw [show collapseGo (c :: rest) target idx cur reserve
            = collapseGo rest target (idx + 1) cur reserve by
              simp [collapseGo, hz, hlt']]
        rw [ih target (idx + 1) cur reserve hrest]
        simp only [List.map_cons, firstExceed, lastNonzero, hz, add_zero, if_neg hlt']
        cases hfe : firstExceed (rest.map Complex.mag_square) target cur with
        | some j => simp [hfe, Nat.add_assoc, Nat.add_comm 1 j]
        | none =>
          simp only [hfe, Option.map_none]
          cases hln : lastNonzero (rest.map Complex.mag_square) with
          | some j => simp [hln, Nat.add_assoc, Nat.add_comm 1 j]
          | none => simp [hln]
      · rw [show collapseGo (c :: rest) target idx cur reserve
            = collapseGo rest target (idx + 1) (cur + c.mag_square) (some idx) by
              simp [collapseGo, hlt, hz, hidx]]
        rw [ih target (idx + 1) (cur + c.mag_square) (some idx) hrest]
        simp only [List.map_cons, firstExceed, lastNonzero, if_neg hlt]
        cases hfe : firstExceed (rest.map Complex.mag_square) target (cur + c.mag_square) with
        | some j => simp [hfe, Nat.add_assoc, Nat.add_comm 1 j]
        | none =>
          simp only [hfe, Option.map_none]
          cases hln : lastNonzero (rest.map Complex.mag_square) with
          | some j => simp [hln, Nat.add_assoc, Nat.add_comm 1 j]
          | none => simp [hln, hz]

/-- C1: for every quantum register (of at most 256 basis states — the `u8`
domain of collapse outcomes) and every target, `collapse_with_target`
first reduces the target modulo 1.0, then walks the basis states in index
order accumulating `current += |amplitude[i]|²`, returning the first index
with `current > target`, and falls back to the last index with non-zero
probability mass seen during the scan (panicking when no such index
exists). -/
theorem collapse_with_target_follows_spec :
    ∀ (v : List Complex) (target : ℚ), v.length ≤ 256 →
      collapse_with_target v target = collapseSpec v target := by
  intro v target hlen
  rw [collapse_with_target, collapseGo_eq_spec v (rustFmod target 1) 0 0 none (by omega),
    collapseSpec]
  cases hfe : firstExceed (v.map Complex.mag_square) (rustFmod target 1) 0 with
  | some j => simp [hfe]
  | none =>
    cases hln : lastNonzero (v.map Complex.mag_square) with
    | some j => simp [hfe, hln]
    | none => simp [hfe, hln]

/-- Witness for C1 at the Bell-state register with target 1/3. -/
theorem collapse_with_target_follows_spec_witness :
    bellList.length ≤ 256 ∧
      collapse_with_target bellList (1 / 3) = collapseSpec bellList (1 / 3) :=
  ⟨by decide, collapse_with_target_follows_spec bellList (1 / 3) (by decide)⟩

/-- Counterexample to C1 as frozen: on a 257-state basis register with all
mass at index 256, the claimed behaviour would return index 256, but the
code panics converting 256 to `u8`. -/
theorem collapse_with_target_follows_spec_cex :
    collapse_with_target bigList (1 / 2) = none ∧
      collapseSpec bigList (1 / 2) = some 256 :=
  ⟨by decide, by decide⟩

/-! ### Safety of the collapse scan (claim C2) -/

/-- The register validity fold is the sum of the squared magnitudes. -/
theorem foldl_magsq_eq_sum (v : List Complex) :
    ∀ s : ℚ, v.foldl (fun acc c => acc + c.mag_square) s
      = s + (v.map Complex.mag_square).sum := by
  induction v with
  | nil => intro s; simp
  | cons c rest ih => intro s; simp [ih, add_assoc]

theorem mag_square_nonneg (z : Complex) : 0 ≤ z.mag_square := by
  unfold Complex.mag_square; positivity

/-- If the scan fallback finds nothing, every probability is zero. -/
theorem lastNonzero_eq_none (l : List ℚ) :
    lastNonzero l = none → ∀ p ∈ l, p = 0 := by
  induction l with
  | nil => simp
  | cons p rest ih =>
    intro h q hq
    rw [lastNonzero] at h
    cases hln : lastNonzero rest with
    | some j => rw [hln] at h; exact absurd h (by simp)
    | none =>
      rw [hln] at h
      by_cases hp : p = 0
      · rcases List.mem_cons.mp hq with rfl | hq'
        · exact hp
        · exact ih hln q hq'
      · simp [hp] at h

/-- The fallback index points at non-zero probability mass, inside the list. -/
theorem lastNonzero_sound (l : List ℚ) :
    ∀ j, lastNonzero l = some j → j < l.length ∧ l.getD j 0 ≠ 0 := by
  induction l with
  | nil => intro j h; exact absurd h (by simp [lastNonzero])
  | cons p rest ih =>
    intro j h
    rw [lastNonzero] at h
    cases hln : lastNonzero rest with
    | some j' =>
      rw [hln] at h
      obtain rfl : j = j' + 1 := by simpa using h.symm
      obtain ⟨h1, h2⟩ := ih j' hln
      exact ⟨by simpa using h1, by simpa using h2⟩
    | none =>
      rw [hln] at h
      by_cases hp : p = 0
      · simp [hp] at h
      · simp only [if_pos hp] at h
        obtain rfl : j = 0 := by simpa using h.symm
        exact ⟨by simp, by simpa using hp⟩

/-- The early-return index points at non-zero probability mass: the running
sum was at most the target before this element and above it after. -/
theorem firstExceed_sound (l : List ℚ) :
    ∀ (target cur : ℚ) (j : ℕ), cur ≤ target →
      firstExceed l target cur = some j → j < l.length ∧ l.getD j 0 ≠ 0 := by
  induction l with
  | nil => intro _ _ j _ h; exact absurd h (by simp [firstExceed])
  | cons p rest ih =>
    intro target cur j hcur h
    rw [firstExceed] at h
    split_ifs at h with hlt
    · obtain rfl : j = 0 := by simpa using h.symm
      refine ⟨by simp, ?_⟩
      have : 0 < p := by linarith
      simpa using this.ne'
    · push_neg at hlt
      cases hfe : firstExceed rest target (cur + p) with
      | some j' =>
        rw [hfe] at h
        obtain rfl : j = j' + 1 := by simpa using h.symm
        obtain ⟨h1, h2⟩ := ih target (cur + p) j' hlt hfe
        exact ⟨by simpa using h1, by simpa using h2⟩
      | none => rw [hfe] at h; exact absurd h (by simp)

/-- `t % 1.0` is nonnegative for nonnegative `t`. -/
theorem rustFmod_one_nonneg (t : ℚ) (h : 0 ≤ t) : 0 ≤ rustFmod t 1 := by
  rw [rustFmod, rustTrunc, div_one, if_pos h]
  have := Int.floor_le t
  linarith

/-- Probability list entry vs. amplitude entry. -/
theorem getD_map_mag_square (v : List Complex) (j : ℕ) (hj : j < v.length) :
    (v.map Complex.mag_square).getD j 0 = (v.getD j Complex.zero).mag_square := by
  rw [List.getD_eq_getElem?_getD, List.getD_eq_getElem?_getD, List.getElem?_map,
    List.getElem?_eq_getElem hj]
  simp

/-- C2 (amended): for every register of at most 256 basis states satisfying
the normalization invariant, `collapse_with_target` never panics for any
target, and for every nonnegative target it never returns an index whose
amplitude has exactly-zero magnitude; the two-outcome equal-superposition
register with target 0.99999994 returns 0b00 or 0b11. -/
theorem collapse_never_returns_zero_mass :
    (∀ (v : List Complex) (target : ℚ), is_valid v → v.length ≤ 256 →
      (collapse_with_target v target).isSome = true ∧
      (0 ≤ target → ∀ i, collapse_with_target v target = some i →
        (v.getD i Complex.zero).mag_square ≠ 0)) ∧
    (collapse_with_target bellList t99 = some 0b00 ∨
      collapse_with_target bellList t99 = some 0b11) := by
  constructor
  · intro v target hval hlen
    have heq := collapseGo_eq_spec v (rustFmod target 1) 0 0 none (by omega)
    have hnz : ∃ p ∈ v.map Complex.mag_square, p ≠ 0 := by
      by_contra hall
      push_neg at hall
      have hsum : (v.map Complex.mag_square).sum = 0 := List.sum_eq_zero hall
      rw [is_valid, foldl_magsq_eq_sum, hsum] at hval
      norm_num at hval
    constructor
    · rw [collapse_with_target, heq]
      cases hfe : firstExceed (v.map Complex.mag_square) (rustFmod target 1) 0 with
      | some j => simp
      | none =>
        cases hln : lastNonzero (v.map Complex.mag_square) with
        | some j => simp
        | none =>
          exfalso
          obtain ⟨p, hp, hpne⟩ := hnz
          exact hpne (lastNonzero_eq_none _ hln p hp)
    · intro ht i hi
      rw [collapse_with_target, heq] at hi
      cases hfe : firstExceed (v.map Complex.mag_square) (rustFmod target 1) 0 with
      | some j =>
        rw [hfe] at hi
        obtain rfl : j = i := by simpa using hi
        obtain ⟨hjlen, hjne⟩ :=
          firstExceed_sound _ _ _ _ (rustFmod_one_nonneg target ht) hfe
        have hj' : j < v.length := by simpa using hjlen
        rwa [getD_map_mag_square v j hj'] at hjne
      | none =>
        rw [hfe] at hi
        cases hln : lastNonzero (v.map Complex.mag_square) with
        | some j =>
          rw [hln] at hi
          obtain rfl : j = i := by simpa using hi
          obtain ⟨hjlen, hjne⟩ := lastNonzero_sound _ _ hln
          have hj' : j < v.length := by simpa using hjlen
          rwa [getD_map_mag_square v j hj'] at hjne
        | none => rw [hln] at hi; exact absurd hi (by simp)
  · exact Or.inr (by decide)

/-- Witness for C2 at the Bell-state register with target 1/3. -/
theorem collapse_never_returns_zero_mass_witness :
    is_valid bellList ∧ (collapse_with_target bellList (1 / 3)).isSome = true :=
  ⟨by decide,
    (collapse_never_returns_zero_mass.1 bellList (1 / 3) (by decide) (by decide)).1⟩

/-- Counterexample to C2 as frozen ("every target", "every register"): a
negative target makes the scan return index 0 of the valid basis register
|1⟩ even though its amplitude there is exactly zero, and on a valid
257-state register the scan panics. -/
theorem collapse_never_returns_zero_mass_cex :
    (is_valid [Complex.zero, Complex.one] ∧
      collapse_with_target [Complex.zero, Complex.one] (-(1 / 2)) = some 0 ∧
      Complex.mag_square Complex.zero = 0) ∧
    (is_valid bigList ∧ collapse_with_target bigList (1 / 2) = none) :=
  ⟨⟨by decide, by decide, by decide⟩, ⟨by decide, by decide⟩⟩

/-! ### Register normalization (claim C3) -/

/-- Bounds extracted from the qubit construction check `relative_eq(1, s)`:
a nonnegative sum passing the check lies in [1 - 2⁻²³, 2²³/(2²³-1)]. -/
theorem relativeEqQ_one_bounds (s : ℚ) (h0 : 0 ≤ s) (h : relativeEqQ 1 s) :
    1 - eps32 ≤ s ∧ s ≤ 8388608 / 8388607 := by
  rcases h with h | h | h
  · rw [← h]; norm_num [eps32]
  · obtain ⟨h1, h2⟩ := abs_le.mp h
    rw [eps32] at h1 h2 ⊢
    constructor <;> linarith
  · rw [abs_one, abs_of_nonneg h0] at h
    rcases le_total s 1 with hs | hs
    · rw [max_eq_left hs] at h
      obtain ⟨h1, h2⟩ := abs_le.mp h
      rw [eps32] at h1 h2 ⊢
      constructor <;> linarith
    · rw [max_eq_right hs] at h
      obtain ⟨h1, h2⟩ := abs_le.mp h
      rw [eps32] at h1 h2 ⊢
      constructor <;> linarith

/-- The tensor product's total squared magnitude is the product of the two
qubits' total squared magnitudes. -/
theorem sumSq_from_2_qubits (qa qb : Qubit) :
    sumSq (from_2_qubits qa qb)
      = (qa.p0.mag_square + qa.p1.mag_square) * (qb.p0.mag_square + qb.p1.mag_square) := by
  simp [sumSq, from_2_qubits, Fin.sum_univ_four, Complex.mag_square]
  ring

/-- star-dot-product of a vector with itself is the total squared magnitude
(as a complex number with zero imaginary part). -/
theorem star_dotProduct_self {n : ℕ} (v : Fin n → Complex) :
    Matrix.dotProduct (star v) v = ⟨sumSq v, 0⟩ := by
  have hterm : ∀ z : Complex, Complex.conj z * z = ⟨z.mag_square, 0⟩ := by
    intro z; ext <;> simp [Complex.mag_square] <;> ring
  ext
  · rw [show (Matrix.dotProduct (star v) v).re = Complex.reHom (∑ i, star (v i) * v i) from rfl,
      map_sum]
    simp [hterm, sumSq]
  · rw [show (Matrix.dotProduct (star v) v).im
        = Complex.imHom (∑ i, star (v i) * v i) from rfl, map_sum]
    simp [hterm]

/-- Applying a gate whose matrix is exactly unitary preserves the total
squared magnitude exactly (in the exact-arithmetic embedding). -/
theorem sumSq_apply_of_unitary (U : Mat4) (v : Fin 4 → Complex)
    (h : unitarityProduct U = 1) :
    sumSq ((BinaryGate.mk U).apply v) = sumSq v := by
  have h1 : U * U.conjTranspose = 1 := h
  have h2 : U.conjTranspose * U = 1 := Matrix.mul_eq_one_comm.mp h1
  have key : (⟨sumSq (U.mulVec v), 0⟩ : Complex) = ⟨sumSq v, 0⟩ := by
    rw [← star_dotProduct_self, ← star_dotProduct_self, Matrix.star_mulVec,
      Matrix.dotProduct_mulVec, Matrix.vecMul_vecMul, h2, Matrix.vecMul_one]
  exact congrArg Complex.re key

/-- C3 (amended): tensor-product registers of valid qubits and classical
basis embeddings satisfy the 1e-6 normalization invariant, and applying the
repository's canonical validated gates CNOT and SWAP — exactly unitary 0/1
matrices, whose application merely permutes the amplitudes (exact also in
`f32` arithmetic) — preserves the total squared magnitude exactly.  (A gate
that merely passes the approximate unitarity validation can scale the
total, so the 1e-6 band is not preserved in general — see the
counterexample.) -/
theorem register_normalization :
    (∀ qa qb : Qubit, qa.valid → qb.valid →
      |sumSq (from_2_qubits qa qb) - 1| ≤ 1 / 1000000) ∧
    (∀ (n : ℕ) (cr : ClassicalRegister) (v : Fin n → Complex),
      from_classical n cr = some v → sumSq v = 1) ∧
    (∀ v : Fin 4 → Complex,
      sumSq ((BinaryGate.mk cnotMat).apply v) = sumSq v) ∧
    (∀ v : Fin 4 → Complex,
      sumSq ((BinaryGate.mk swapMat).apply v) = sumSq v) := by
  refine ⟨?_, ?_,
    fun v => sumSq_apply_of_unitary cnotMat v (by decide),
    fun v => sumSq_apply_of_unitary swapMat v (by decide)⟩
  · intro qa qb hqa hqb
    have h0a : 0 ≤ qa.p0.mag_square + qa.p1.mag_square :=
      add_nonneg (mag_square_nonneg _) (mag_square_nonneg _)
    have h0b : 0 ≤ qb.p0.mag_square + qb.p1.mag_square :=
      add_nonneg (mag_square_nonneg _) (mag_square_nonneg _)
    obtain ⟨la, ua⟩ := relativeEqQ_one_bounds _ h0a hqa
    obtain ⟨lb, ub⟩ := relativeEqQ_one_bounds _ h0b hqb
    rw [sumSq_from_2_qubits]
    have hlow : (1 - eps32) * (1 - eps32)
        ≤ (qa.p0.mag_square + qa.p1.mag_square) * (qb.p0.mag_square + qb.p1.mag_square) :=
      mul_le_mul la lb (by norm_num [eps32]) h0a
    have hup : (qa.p0.mag_square + qa.p1.mag_square) * (qb.p0.mag_square + qb.p1.mag_square)
        ≤ (8388608 / 8388607) * (8388608 / 8388607) :=
      mul_le_mul ua ub h0b (by norm_num)
    rw [abs_le]
    rw [eps32] at hlow
    have hc1 : (1 : ℚ) - 1 / 1000000 ≤ (1 - 1 / 8388608) * (1 - 1 / 8388608) := by norm_num
    have hc2 : ((8388608 : ℚ) / 8388607) * (8388608 / 8388607) ≤ 1 + 1 / 1000000 := by norm_num
    constructor
    · linarith
    · linarith
  · intro n cr v h
    rw [from_classical] at h
    split_ifs at h with hlt
    · obtain rfl : (fun i : Fin n => if i.val = cr.bits then Complex.one else Complex.zero) = v :=
        by simpa using h
      have hre : ∀ i : Fin n,
          ((if i.val = cr.bits then Complex.one else Complex.zero).mag_square)
            = if i = ⟨cr.bits, hlt⟩ then 1 else 0 := by
        intro i
        by_cases hi : i.val = cr.bits
        · rw [if_pos hi, if_pos (Fin.ext hi)]
          norm_num [Complex.mag_square, Complex.one]
        · rw [if_neg hi, if_neg (fun hc => hi (by rw [hc]))]
          norm_num [Complex.mag_square, Complex.zero]
      rw [sumSq]
      rw [Finset.sum_congr rfl fun i _ => hre i]
      simp

/-- Witness for C3 at the |0⟩⊗|0⟩ tensor product and the classical
pattern 0. -/
theorem register_normalization_witness :
    (Qubit.zero.valid ∧ |sumSq (from_2_qubits Qubit.zero Qubit.zero) - 1| ≤ 1 / 1000000) ∧
    (from_classical 4 ⟨0⟩ = some e0reg ∧ sumSq e0reg = 1) ∧
    sumSq ((BinaryGate.mk cnotMat).apply e0reg) = sumSq e0reg :=
  ⟨⟨by decide, register_normalization.1 Qubit.zero Qubit.zero (by decide) (by decide)⟩,
    ⟨by decide, register_normalization.2.1 4 ⟨0⟩ e0reg (by decide)⟩,
    register_normalization.2.2.1 e0reg⟩

/-- Counterexample to C3 as frozen: the matrix (1-2⁻²⁴)·I — every entry an
exact `f32` value — passes the approximate unitarity validation, yet nine
applications of it to the valid basis register |00⟩ shrink the total
squared magnitude to (1-2⁻²⁴)¹⁸ ≈ 1 - 1.07e-6, outside the 1e-6
normalization band — a register reachable through the public constructors
violating the invariant.  (The real `f32` computation drifts identically:
the amplitude after nine applications is exactly 1 - 9·2⁻²⁴.) -/
theorem register_normalization_cex :
    BinaryGate.new gmat = some (BinaryGate.mk gmat) ∧
    from_classical 4 ⟨0⟩ = some e0reg ∧
    is_valid (List.ofFn e0reg) ∧
    ¬ is_valid (List.ofFn (((BinaryGate.mk gmat).apply)^[9] e0reg)) :=
  ⟨by decide, by decide, by decide, by decide⟩

/-! ### Qubit construction validation (claim C4) -/

/-- C4 (amended): `Qubit::new(p0, p1)` fails iff |p0|²+|p1|² fails the `f32`
relative-equality test against 1 with both epsilons `f32::EPSILON` = 2⁻²³ —
i.e. iff the deviation exceeds 2⁻²³ and 2⁻²³·max(1, |sum|) (≈1.19e-7 near 1,
an order of magnitude tighter than the claimed ~1e-6); the concrete cases
hold as claimed: (0,0) and (1,1) fail, (i,0), (-i,0) and (1,0) succeed. -/
theorem qubit_new_validation :
    (∀ p_0 p_1 : Complex,
      Qubit.new p_0 p_1 = none ↔
        (eps32 < |1 - (p_0.mag_square + p_1.mag_square)| ∧
         max 1 |p_0.mag_square + p_1.mag_square| * eps32
           < |1 - (p_0.mag_square + p_1.mag_square)|)) ∧
    Qubit.new Complex.zero Complex.zero = none ∧
    Qubit.new Complex.one Complex.one = none ∧
    (Qubit.new Complex.i Complex.zero).isSome = true ∧
    (Qubit.new (-Complex.i) Complex.zero).isSome = true ∧
    (Qubit.new Complex.one Complex.zero).isSome = true := by
  refine ⟨?_, by decide, by decide, by decide, by decide, by decide⟩
  intro p_0 p_1
  rw [Qubit.new]
  split_ifs with h
  · simp only [reduceCtorEq, false_iff, not_and, not_lt]
    intro h1
    rcases h with he | hle | hle
    · rw [← he] at h1; norm_num [eps32] at h1
    · exact absurd h1 (not_lt.mpr hle)
    · rw [abs_one] at hle
      exact hle
  · simp only [true_iff]
    rw [relativeEqQ, not_or, not_or, abs_one] at h
    obtain ⟨hne, h2, h3⟩ := h
    exact ⟨not_le.mp h2, not_le.mp h3⟩

/-- Counterexample to C4's claimed ~1e-6 threshold: the sum 1 + 2⁻²²
deviates from 1 by ≈2.4e-7 < 1e-6, yet construction fails. -/
theorem qubit_new_validation_cex :
    Qubit.new ⟨1, 1 / 2048⟩ Complex.zero = none ∧
    |1 - ((Complex.mk 1 (1 / 2048)).mag_square + Complex.zero.mag_square)|
      < 1 / 1000000 :=
  ⟨by decide, by decide⟩

/-! ### Gate unitarity validation (claim C5) -/

/-- C5: constructing a `UnaryGate` or `BinaryGate` from a matrix `U`
succeeds iff `U·U†` is within tolerance of the identity — so construction
fails on matrices beyond tolerance, and every constructed gate's matrix
satisfies `U·U† ≈ I`. -/
theorem gate_unitarity_validation :
    (∀ mat : Mat2, (UnaryGate.new mat).isSome = true
        ↔ matRelEq (unitarityProduct mat) 1) ∧
    (∀ mat : Mat4, (BinaryGate.new mat).isSome = true
        ↔ matRelEq (unitarityProduct mat) 1) := by
  constructor
  · intro mat
    rw [UnaryGate.new]
    split_ifs with h <;> simp [h]
  · intro mat
    rw [BinaryGate.new]
    split_ifs with h <;> simp [h]

/-! ### CNOT truth table (claim C6) -/

/-- C6: `gates::cnot()` constructs successfully, and on all four
computational-basis tensor products `(control, target)` it produces the
tensor product `(control, target XOR control)`. -/
theorem cnot_truth_table :
    cnot = some (BinaryGate.mk cnotMat) ∧
    (BinaryGate.mk cnotMat).apply (from_2_qubits Qubit.zero Qubit.zero)
      = from_2_qubits Qubit.zero Qubit.zero ∧
    (BinaryGate.mk cnotMat).apply (from_2_qubits Qubit.zero Qubit.one)
      = from_2_qubits Qubit.zero Qubit.one ∧
    (BinaryGate.mk cnotMat).apply (from_2_qubits Qubit.one Qubit.zero)
      = from_2_qubits Qubit.one Qubit.one ∧
    (BinaryGate.mk cnotMat).apply (from_2_qubits Qubit.one Qubit.one)
      = from_2_qubits Qubit.one Qubit.zero :=
  ⟨by decide, by decide, by decide, by decide, by decide⟩

/-! ### CNOT/SWAP relation (claim C7) -/

/-- C7: with `swap(CNOT) = SWAP ∘ CNOT ∘ SWAP`, both
`CNOT ∘ swap(CNOT) ∘ CNOT` and `swap(CNOT) ∘ CNOT ∘ swap(CNOT)` compose
without panicking and equal the SWAP gate exactly (hence within
tolerance). -/
theorem cnot_swap_relation :
    swapGate = some (BinaryGate.mk swapMat) ∧
    (cnot.bind fun c => (c.swap).bind fun cs =>
      (c.compose cs).bind fun g => g.compose c) = some (BinaryGate.mk swapMat) ∧
    (cnot.bind fun c => (c.swap).bind fun cs =>
      (cs.compose c).bind fun g => g.compose cs) = some (BinaryGate.mk swapMat) := by
  have hc : cnot = some (BinaryGate.mk cnotMat) := by decide
  have hsw : swapGate = some (BinaryGate.mk swapMat) := by decide
  have hsA : (BinaryGate.mk swapMat).compose (BinaryGate.mk cnotMat)
      = some (BinaryGate.mk swapCnotMat) := by decide
  have hsB : (BinaryGate.mk swapCnotMat).compose (BinaryGate.mk swapMat)
      = some (BinaryGate.mk swapCnotSwapMat) := by decide
  have hs : (BinaryGate.mk cnotMat).swap
      = some (BinaryGate.mk swapCnotSwapMat) := by
    rw [BinaryGate.swap, hsw, Option.some_bind, hsA, Option.some_bind, hsB]
  have h1 : (BinaryGate.mk cnotMat).compose (BinaryGate.mk swapCnotSwapMat)
      = some (BinaryGate.mk cnotSwapCnotSwapMat) := by decide
  have h2 : (BinaryGate.mk cnotSwapCnotSwapMat).compose
        (BinaryGate.mk cnotMat) = some (BinaryGate.mk swapMat) := by decide
  have h3 : (BinaryGate.mk swapCnotSwapMat).compose (BinaryGate.mk cnotMat)
      = some (BinaryGate.mk swapCnotSwapCnotMat) := by decide
  have h4 : (BinaryGate.mk swapCnotSwapCnotMat).compose
        (BinaryGate.mk swapCnotSwapMat) = some (BinaryGate.mk swapMat) := by decide
  refine ⟨by decide, ?_, ?_⟩
  · rw [hc, Option.some_bind, hs, Option.some_bind, h1, Option.some_bind, h2]
  · rw [hc, Option.some_bind, hs, Option.some_bind, h3, Option.some_bind, h4]

/-! ### Classical register round-trip (claims C8, C9) -/

/-- The number packed LSB-first has the input booleans as its bits. -/
theorem ofBits_testBit (l : List Bool) :
    ∀ i, (ClassicalRegister.ofBits l).testBit i = l.getD i false := by
  induction l with
  | nil => intro i; simp [ClassicalRegister.ofBits]
  | cons b rest ih =>
    intro i
    cases i with
    | zero =>
      rw [ClassicalRegister.ofBits, Nat.testBit_zero, Nat.add_mul_mod_self_left]
      cases b <;> simp
    | succ i =>
      rw [ClassicalRegister.ofBits, Nat.testBit_succ,
        Nat.add_mul_div_left _ _ (by norm_num : (0:ℕ) < 2)]
      cases b <;> simp [ih]

/-- The packing loop, for at most 8 bits, ORs the shifted packed value onto
the accumulator. -/
theorem from_iterGo_eq (l : List Bool) :
    ∀ (n acc : ℕ), n + l.length ≤ 8 →
      ClassicalRegister.from_iterGo l n acc
        = some (acc ||| (ClassicalRegister.ofBits l <<< n)) := by
  induction l with
  | nil =>
    intro n acc _
    simp [ClassicalRegister.from_iterGo, ClassicalRegister.ofBits]
  | cons b rest ih =>
    intro n acc h
    have h8 : ¬ 8 ≤ n := by simp only [List.length_cons] at h; omega
    rw [ClassicalRegister.from_iterGo, if_neg h8,
      ih (n + 1) _ (by simp only [List.length_cons] at h; omega)]
    congr 1
    rw [Nat.or_assoc]
    congr 1
    apply Nat.eq_of_testBit_eq
    intro i
    simp only [Nat.testBit_or, Nat.testBit_shiftLeft, ofBits_testBit]
    rcases Nat.lt_trichotomy i n with hin | rfl | hin
    · have d1 : ¬ n ≤ i := by omega
      have d2 : ¬ n + 1 ≤ i := by omega
      simp [d1, d2]
    · have d2 : ¬ i + 1 ≤ i := by omega
      simp only [ge_iff_le, le_refl, decide_eq_true_eq, d2, Nat.sub_self]
      cases b <;> simp [ClassicalRegister.ofBits, ofBits_testBit]
    · have d1 : n ≤ i := by omega
      have d2 : n + 1 ≤ i := by omega
      obtain ⟨k, rfl⟩ : ∃ k, i = n + (k + 1) := ⟨i - n - 1, by omega⟩
      have e1 : n + (k + 1) - n = k + 1 := by omega
      have e2 : n + (k + 1) - (n + 1) = k := by omega
      have hb1 : Nat.testBit b.toNat (k + 1) = false := by
        cases b <;> simp [Nat.testBit_succ]
      simp [d1, d2, e1, e2, ofBits_testBit, hb1]

/-- `from_iter` on at most 8 booleans packs them LSB-first. -/
theorem from_iter_eq (l : List Bool) (h : l.length ≤ 8) :
    ClassicalRegister.from_iter l = some ⟨ClassicalRegister.ofBits l⟩ := by
  rw [ClassicalRegister.from_iter, from_iterGo_eq l 0 0 (by omega)]
  simp

/-- `index(i)` for `i < 8` reads bit `i`. -/
theorem index_eq_testBit (r : ClassicalRegister) (i : ℕ) (h : i < 8) :
    r.index i = some (r.bits.testBit i) := by
  rw [ClassicalRegister.index, if_neg (by omega)]
  congr 1
  rw [Nat.and_one_is_mod, Nat.shiftRight_eq_div_pow, Nat.testBit_to_div_mod]

/-- C8: packing at most 8 booleans into a `ClassicalRegister` (LSB-first)
and reading bit `i` back with `index(i)` returns the `i`-th boolean of the
original sequence, for every `i` below the sequence length. -/
theorem classical_register_roundtrip :
    ∀ (l : List Bool), l.length ≤ 8 → ∀ i, i < l.length →
      (ClassicalRegister.from_iter l).bind (fun r => r.index i)
        = some (l.getD i false) := by
  intro l hl i hi
  rw [from_iter_eq l hl, Option.some_bind, index_eq_testBit _ i (by omega),
    ofBits_testBit]

/-- Witness for C8 at the sequence [true, false, true], bit 2. -/
theorem classical_register_roundtrip_witness :
    ([true, false, true].length ≤ 8) ∧
      (ClassicalRegister.from_iter [true, false, true]).bind (fun r => r.index 2)
        = some true :=
  ⟨by decide, classical_register_roundtrip [true, false, true] (by decide) 2 (by decide)⟩

/-- The packing loop panics once the shift index reaches 8 with input left. -/
theorem from_iterGo_overflow (l : List Bool) :
    ∀ (n acc : ℕ), 8 < n + l.length → n ≤ 8 →
      ClassicalRegister.from_iterGo l n acc = none := by
  induction l with
  | nil => intro n acc h hn; simp only [List.length_nil, Nat.add_zero] at h; omega
  | cons b rest ih =>
    intro n acc h hn
    by_cases h8 : 8 ≤ n
    · rw [ClassicalRegister.from_iterGo, if_pos h8]
    · rw [ClassicalRegister.from_iterGo, if_neg h8]
      exact ih (n + 1) _ (by simp only [List.length_cons] at h; omega) (by omega)

/-- C9: constructing a `ClassicalRegister` from more than 8 booleans fails
(the `u8` shift overflows and panics at construction); it never silently
truncates to the low 8 bits. -/
theorem classical_register_overflow :
    ∀ l : List Bool, 8 < l.length → ClassicalRegister.from_iter l = none := by
  intro l h
  rw [ClassicalRegister.from_iter, from_iterGo_overflow l 0 0 (by omega) (by omega)]
  rfl

/-- Witness for C9 at nine `true`s. -/
theorem classical_register_overflow_witness :
    ClassicalRegister.from_iter (List.replicate 9 true) = none :=
  classical_register_overflow _ (by decide)

/-! ### Qubit negation (claim C10) -/

/-- C10: negation preserves the sum of squared amplitude magnitudes exactly
(so the negation of a valid qubit is valid), is an exact involution, and
produces a structurally distinct value on every valid qubit. -/
theorem qubit_negation_properties :
    (∀ q : Qubit, q.neg.p0.mag_square + q.neg.p1.mag_square
      = q.p0.mag_square + q.p1.mag_square) ∧
    (∀ q : Qubit, q.neg.neg = q) ∧
    (∀ q : Qubit, q.valid → q.neg ≠ q ∧ q.neg.valid) := by
  have hsum : ∀ q : Qubit, q.neg.p0.mag_square + q.neg.p1.mag_square
      = q.p0.mag_square + q.p1.mag_square := by
    intro q
    simp [Qubit.neg, Complex.mag_square]
  refine ⟨hsum, ?_, ?_⟩
  · intro q
    ext <;> simp [Qubit.neg]
  · intro q hv
    constructor
    · intro he
      obtain ⟨⟨a, b⟩, ⟨c, d⟩⟩ := q
      simp only [Qubit.neg, Complex.instNeg, Complex.neg, Qubit.mk.injEq,
        Complex.mk.injEq] at he
      obtain ⟨⟨ha, hb⟩, hc, hd⟩ := he
      have ha' : a = 0 := by linarith
      have hb' : b = 0 := by linarith
      have hc' : c = 0 := by linarith
      have hd' : d = 0 := by linarith
      rw [Qubit.valid] at hv
      simp only [Complex.mag_square, ha', hb', hc', hd'] at hv
      norm_num [relativeEqQ, eps32] at hv
    · rw [Qubit.valid, hsum q]
      exact hv

/-- Witness for C10 at the computational-basis qubit |1⟩. -/
theorem qubit_negation_properties_witness :
    Qubit.one.valid ∧ (Qubit.one.neg ≠ Qubit.one ∧ Qubit.one.neg.valid) :=
  ⟨by decide, qubit_negation_properties.2.2 Qubit.one (by decide)⟩

end ToyQuant
